import Mathlib

/-!
Shallow embedding of the PermutationImportance repository's metrics module
(src/metrics.py) and sequential selection engine (src/sequential_selection.py).

Numpy arrays are modelled as lists of rationals (1-D) or lists of rows (2-D);
contingency tables are lists of rows of rationals, mirroring the float arrays
the code builds (all entries it ever stores are integral counts).
-/

/-- The error taxonomy of src/error_handling (only the classes the metrics
module raises). -/
inductive MetricError where
  | unmatchedLength      -- UnmatchedLengthPredictionsException
  | unmatchingProb       -- UnmatchingProbabilisticForecastsException
  | ambiguousProb        -- AmbiguousProbabilisticForecastsException
deriving DecidableEq, Repr

/-- A numpy array argument as the metrics code distinguishes them: 1-D
(deterministic labels) or 2-D (probabilistic, one row per sample). -/
inductive NDArr where
  | one (xs : List ℚ)
  | two (rows : List (List ℚ))
deriving DecidableEq, Repr

/-- `len(arr)`: number of samples (rows for a 2-D array). -/
def NDArr.len : NDArr → ℕ
  | .one xs => xs.length
  | .two rows => rows.length

/-- `arr.shape[1]` of a 2-D array (width of the rows; numpy arrays are
rectangular, so the head row's length). -/
def NDArr.shape1 : NDArr → ℕ
  | .one _ => 0
  | .two rows => (rows.headD []).length

/-- Helper for `np.argmax`: scan the tail remembering the best value and its
index, replacing only on a strictly larger value. -/
def argmaxAux : List ℚ → ℚ → ℕ → ℕ → ℕ
  | [], _, _, bi => bi
  | x :: xs, bv, i, bi =>
      if bv < x then argmaxAux xs x (i + 1) i else argmaxAux xs bv (i + 1) bi

/-- `np.argmax(xs)`: index of the first occurrence of the maximum. -/
def argmaxIdx : List ℚ → ℕ
  | [] => 0
  | x :: xs => argmaxAux xs x 1 0

/-- `np.unique(l)`: the sorted list of the distinct values of `l`. -/
def npUnique (l : List ℚ) : List ℚ := l.dedup.insertionSort (· ≤ ·)

/-- The deterministic-branch table of `_get_contingency_table`:
`table[i, j] = [p == classes[i] and t == classes[j] for p, t in
zip(preds, truths)].count(True)`. -/
def buildDetTable (preds truths classes : List ℚ) : List (List ℚ) :=
  classes.map fun c1 => classes.map fun c2 =>
    (((preds.zip truths).countP fun pt => pt.1 = c1 ∧ pt.2 = c2 : ℕ) : ℚ)

/-- The fully probabilistic branch: a `w × w` table of zeros with
`table[pred, true] += 1` for each sample, `pred`/`true` the per-row argmaxes
of predictions and truths. -/
def buildProbTable (w : ℕ) (truthRows predRows : List (List ℚ)) : List (List ℚ) :=
  (List.range w).map fun i => (List.range w).map fun j =>
    ((((predRows.map argmaxIdx).zip (truthRows.map argmaxIdx)).countP
        fun pt => pt.1 = i ∧ pt.2 = j : ℕ) : ℚ)

/-- `_get_contingency_table(truths, predictions, classes)` from
src/metrics.py, with each `raise` modelled as an `Except.error`. -/
def getContingencyTable (truths predictions : NDArr) (classes : Option (List ℚ)) :
    Except MetricError (List (List ℚ)) :=
  if truths.len ≠ predictions.len then .error .unmatchedLength
  else
    match truths with
    | .two trows =>
        -- Fully probabilistic model
        match predictions with
        | .one _ => .error .unmatchingProb
        | .two prows =>
            if (prows.headD []).length ≠ (trows.headD []).length then
              .error .unmatchingProb
            else .ok (buildProbTable (trows.headD []).length trows prows)
    | .one tvals =>
        match predictions with
        | .two prows =>
            -- in this case, we require the class listing
            match classes with
            | none => .error .ambiguousProb
            | some cs =>
                .ok (buildDetTable (prows.map fun row => cs.getD (argmaxIdx row) 0)
                      tvals cs)
        | .one pvals =>
            match classes with
            | none =>
                .ok (buildDetTable pvals tvals
                      (npUnique (npUnique tvals ++ npUnique pvals)))
            | some cs => .ok (buildDetTable pvals tvals cs)

/-- `k`, the side of the (square) table. -/
def tdim (T : List (List ℚ)) : ℕ := T.length

/-- `table[i, j]` (0 outside the table). -/
def tentry (T : List (List ℚ)) (i j : ℕ) : ℚ := (T.getD i []).getD j 0

/-- `table.sum()` on a `k × k` table. -/
def tableSum (T : List (List ℚ)) : ℚ :=
  ∑ i in Finset.range (tdim T), ∑ j in Finset.range (tdim T), tentry T i j

/-- `table.sum(axis=1)[i]`: the row marginal `nf`. -/
def rowMarginal (T : List (List ℚ)) (i : ℕ) : ℚ :=
  ∑ j in Finset.range (tdim T), tentry T i j

/-- `table.sum(axis=0)[j]`: the column marginal `no`. -/
def colMarginal (T : List (List ℚ)) (j : ℕ) : ℚ :=
  ∑ i in Finset.range (tdim T), tentry T i j

/-- `table.trace()`. -/
def tableTrace (T : List (List ℚ)) : ℚ :=
  ∑ i in Finset.range (tdim T), tentry T i i

/-- `_peirce_skill_score(table)` from src/metrics.py. -/
def peirceOfTable (T : List (List ℚ)) : ℚ :=
  let n := tableSum T
  let correct := tableTrace T
  (correct / n - (∑ i in Finset.range (tdim T), rowMarginal T i * colMarginal T i) / n ^ 2)
    / (1 - (∑ i in Finset.range (tdim T), colMarginal T i * colMarginal T i) / n ^ 2)

/-- `_heidke_skill_score(table)` from src/metrics.py. -/
def heidkeOfTable (T : List (List ℚ)) : ℚ :=
  let n := tableSum T
  let correct := tableTrace T
  (correct / n - (∑ i in Finset.range (tdim T), rowMarginal T i * colMarginal T i) / n ^ 2)
    / (1 - (∑ i in Finset.range (tdim T), rowMarginal T i * colMarginal T i) / n ^ 2)

/-- `_gerrity_score(table)` from src/metrics.py: `p_o = col sums / n`,
`p_sum = cumsum(p_o)[:-1]`, `a = (1 - p_sum)/p_sum`, scoring matrix `s`
by the diagonal / upper / mirrored-lower cases, result `Σ (T/n) ⊙ s`. -/
def gerrityOfTable (T : List (List ℚ)) : ℚ :=
  let k := tdim T
  let n := tableSum T
  let pSum : ℕ → ℚ := fun m => ∑ j in Finset.range (m + 1), colMarginal T j / n
  let a : ℕ → ℚ := fun m => (1 - pSum m) / pSum m
  let s : ℕ → ℕ → ℚ := fun i j =>
    if i = j then
      1 / ((k : ℚ) - 1) * ((∑ m in Finset.range j, 1 / a m) + ∑ m in Finset.Ico j (k - 1), a m)
    else if i < j then
      1 / ((k : ℚ) - 1) *
        ((∑ m in Finset.range i, 1 / a m) - ((j : ℚ) - (i : ℚ)) + ∑ m in Finset.Ico j (k - 1), a m)
    else
      1 / ((k : ℚ) - 1) *
        ((∑ m in Finset.range j, 1 / a m) - ((i : ℚ) - (j : ℚ)) + ∑ m in Finset.Ico i (k - 1), a m)
  ∑ i in Finset.range k, ∑ j in Finset.range k, tentry T i j / n * s i j

/-- `gerrity_score(truths, predictions, classes)` from src/metrics.py. -/
def gerrity_score (truths predictions : NDArr) (classes : Option (List ℚ)) :
    Except MetricError ℚ :=
  (getContingencyTable truths predictions classes).map gerrityOfTable

/-- `peirce_skill_score(truths, predictions, classes)` from src/metrics.py. -/
def peirce_skill_score (truths predictions : NDArr) (classes : Option (List ℚ)) :
    Except MetricError ℚ :=
  (getContingencyTable truths predictions classes).map peirceOfTable

/-- `heidke_skill_score(truths, predictions, classes)` from src/metrics.py. -/
def heidke_skill_score (truths predictions : NDArr) (classes : Option (List ℚ)) :
    Except MetricError ℚ :=
  (getContingencyTable truths predictions classes).map heidkeOfTable

/-- The spec's class ordering for the deterministic branch, written from its
words: "the sorted union of the unique truth and prediction labels". -/
def sortedUnionOfLabels (truths preds : List ℚ) : List ℚ :=
  ((truths ++ preds).dedup).insertionSort (· ≤ ·)

/-- Python's `min(xs, key=f)`: the first element attaining the minimum of `f`
(the running best is replaced only on a strictly smaller key); `none` on an
empty iterable (Python raises ValueError there). -/
def pyMin {α : Type} (f : α → ℚ) : List α → Option α
  | [] => none
  | x :: xs => some (xs.foldl (fun b a => if f a < f b then a else b) x)

/-- Modelled from the spec: `sfs_strategy` lives in the selection_strategies
module, which is not under src/.  Spec §4.1: one candidate per variable not in
`important_so_far`, in a stable ascending-variable-index order; the attached
column set is `important_so_far ∪ {candidate}` (it only feeds the opaque
scoring callback, so only the candidate sequence is modelled). -/
def sfsCandidates (numVars : ℕ) (important : List ℕ) : List ℕ :=
  (List.range numVars).filter fun v => v ∉ important

/-- Modelled from the spec: `convert_result_list_to_dict` lives in the utils
module, which is not under src/.  Spec §4.3: the round's collected list
becomes an insertion-ordered mapping variable → value whose component `[0]`
is the comparison key derived per the scoring strategy.  `keyOf important v`
abstracts the composite "score the columns `important ∪ {v}` and derive the
comparison key"; it is a pure function per spec §6. -/
def roundMapping (keyOf : List ℕ → ℕ → ℚ) (numVars : ℕ) (important : List ℕ) :
    List (ℕ × ℚ) :=
  (sfsCandidates numVars important).map fun v => (v, keyOf important v)

/-- One round of the engine loop in `sequential_selection`
(src/sequential_selection.py): `best_var = min(next_result.keys(),
key=lambda key: next_result[key][0])`. -/
def selectRound (keyOf : List ℕ → ℕ → ℚ) (numVars : ℕ) (important : List ℕ) :
    Option ℕ :=
  (pyMin Prod.snd (roundMapping keyOf numVars important)).map Prod.fst

/-- The `important_vars` list after `r` iterations of the engine's `for` loop;
`none` once a round has failed (Python's `min` raising on an empty dict). -/
def importantAfter (keyOf : List ℕ → ℕ → ℚ) (numVars : ℕ) : ℕ → Option (List ℕ)
  | 0 => some []
  | r + 1 =>
      (importantAfter keyOf numVars r).bind fun imp =>
        (selectRound keyOf numVars imp).map fun w => imp ++ [w]

/-- `sequential_selection` (src/sequential_selection.py), reduced to the data
the claims are about: the committed important-variable sequence after
`nimportant_vars` rounds (`nimportant_vars` defaulting to the number of
variables). -/
def sequential_selection (keyOf : List ℕ → ℕ → ℚ) (numVars : ℕ)
    (nimportantVars : Option ℕ) : Option (List ℕ) :=
  importantAfter keyOf numVars (nimportantVars.getD numVars)

instance {ε α : Type} [DecidableEq ε] [DecidableEq α] : DecidableEq (Except ε α) := fun a b =>
  match a, b with
  | .ok x, .ok y => decidable_of_iff (x = y) (by simp)
  | .error x, .error y => decidable_of_iff (x = y) (by simp)
  | .ok _, .error _ => .isFalse (by simp)
  | .error _, .ok _ => .isFalse (by simp)

theorem tdim_buildDetTable (pv tv cls : List ℚ) :
    tdim (buildDetTable pv tv cls) = cls.length := by
  simp [buildDetTable, tdim]

theorem getD_map_lt {α β : Type} (f : α → β) (l : List α) (d : β) (d' : α) {i : ℕ}
    (h : i < l.length) : (l.map f).getD i d = f (l.getD i d') := by
  rw [List.getD_eq_getElem _ _ (by simpa using h), List.getElem_map,
    List.getD_eq_getElem _ _ h]

theorem tentry_buildDetTable (pv tv cls : List ℚ) {i j : ℕ}
    (hi : i < cls.length) (hj : j < cls.length) :
    tentry (buildDetTable pv tv cls) i j =
      (((pv.zip tv).countP fun pt =>
          pt.1 = cls.getD i 0 ∧ pt.2 = cls.getD j 0 : ℕ) : ℚ) := by
  unfold tentry buildDetTable
  rw [getD_map_lt _ cls [] 0 hi, getD_map_lt _ cls 0 0 hj]

/-- The class list the code derives when `classes` is absent and both inputs
are deterministic equals the spec's "sorted union of the unique truth and
prediction labels". -/
theorem npUnique_derived_classes (tvals pvals : List ℚ) :
    npUnique (npUnique tvals ++ npUnique pvals) = sortedUnionOfLabels tvals pvals := by
  unfold npUnique sortedUnionOfLabels
  refine List.eq_of_perm_of_sorted ?_ (List.sorted_insertionSort _ _)
    (List.sorted_insertionSort _ _)
  refine ((List.perm_insertionSort _ _).trans ?_).trans
    (List.perm_insertionSort _ _).symm
  refine (List.perm_ext_iff_of_nodup (List.nodup_dedup _) (List.nodup_dedup _)).mpr ?_
  intro a
  simp [List.mem_dedup, List.mem_append, List.mem_insertionSort]

/-- Claim C1: with 1-D truths and predictions of equal length and no classes
supplied, the table builder (used by all three metric functions) orders the
classes as the sorted union of the labels, and entry `[i, j]` counts the
samples with prediction `classes[i]` and truth `classes[j]`. -/
theorem claim_C1 (tvals pvals : List ℚ) (h : tvals.length = pvals.length) :
    ∃ T, getContingencyTable (.one tvals) (.one pvals) none = .ok T ∧
      gerrity_score (.one tvals) (.one pvals) none = .ok (gerrityOfTable T) ∧
      peirce_skill_score (.one tvals) (.one pvals) none = .ok (peirceOfTable T) ∧
      heidke_skill_score (.one tvals) (.one pvals) none = .ok (heidkeOfTable T) ∧
      tdim T = (sortedUnionOfLabels tvals pvals).length ∧
      ∀ i j, i < tdim T → j < tdim T →
        tentry T i j =
          (((pvals.zip tvals).countP fun pt =>
              pt.1 = (sortedUnionOfLabels tvals pvals).getD i 0 ∧
              pt.2 = (sortedUnionOfLabels tvals pvals).getD j 0 : ℕ) : ℚ) := by
  have hl : (NDArr.one tvals).len = (NDArr.one pvals).len := h
  have hg : getContingencyTable (.one tvals) (.one pvals) none =
      .ok (buildDetTable pvals tvals (sortedUnionOfLabels tvals pvals)) := by
    rw [← npUnique_derived_classes]
    simp [getContingencyTable, hl]
  refine ⟨_, hg, by simp [gerrity_score, hg, Except.map],
    by simp [peirce_skill_score, hg, Except.map],
    by simp [heidke_skill_score, hg, Except.map],
    tdim_buildDetTable _ _ _, fun i j hi hj => ?_⟩
  rw [tdim_buildDetTable] at hi hj
  exact tentry_buildDetTable _ _ _ hi hj

theorem claim_C1_witness :
    ∃ T, getContingencyTable (.one [0, 1]) (.one [1, 1]) none = .ok T ∧
      gerrity_score (.one [0, 1]) (.one [1, 1]) none = .ok (gerrityOfTable T) ∧
      peirce_skill_score (.one [0, 1]) (.one [1, 1]) none = .ok (peirceOfTable T) ∧
      heidke_skill_score (.one [0, 1]) (.one [1, 1]) none = .ok (heidkeOfTable T) ∧
      tdim T = (sortedUnionOfLabels [0, 1] [1, 1]).length ∧
      ∀ i j, i < tdim T → j < tdim T →
        tentry T i j =
          ((([1, 1].zip [0, 1]).countP fun pt : ℚ × ℚ =>
              pt.1 = (sortedUnionOfLabels [0, 1] [1, 1]).getD i 0 ∧
              pt.2 = (sortedUnionOfLabels [0, 1] [1, 1]).getD j 0 : ℕ) : ℚ) :=
  claim_C1 [0, 1] [1, 1] rfl

/-- Claim C3: on any table the code builds with positive grand total,
`peirce_skill_score` computes
`(trace/n − Σ row·col /n²) / (1 − Σ col² /n²)` and `heidke_skill_score`
computes `(trace/n − Σ row·col /n²) / (1 − Σ row·col /n²)`. -/
theorem claim_C3 (t p : NDArr) (c : Option (List ℚ)) (T : List (List ℚ))
    (hT : getContingencyTable t p c = .ok T) (_hn : 0 < tableSum T) :
    peirce_skill_score t p c =
      .ok ((tableTrace T / tableSum T -
            (∑ i in Finset.range (tdim T), rowMarginal T i * colMarginal T i) /
              tableSum T ^ 2) /
          (1 - (∑ i in Finset.range (tdim T), colMarginal T i * colMarginal T i) /
              tableSum T ^ 2)) ∧
    heidke_skill_score t p c =
      .ok ((tableTrace T / tableSum T -
            (∑ i in Finset.range (tdim T), rowMarginal T i * colMarginal T i) /
              tableSum T ^ 2) /
          (1 - (∑ i in Finset.range (tdim T), rowMarginal T i * colMarginal T i) /
              tableSum T ^ 2)) := by
  constructor
  · simp [peirce_skill_score, hT, peirceOfTable, Except.map]
  · simp [heidke_skill_score, hT, heidkeOfTable, Except.map]

theorem claim_C3_witness :
    getContingencyTable (.one [1, 2, 2]) (.one [1, 1, 2]) none = .ok [[1, 1], [0, 1]] ∧
    0 < tableSum [[1, 1], [0, 1]] ∧
    peirce_skill_score (.one [1, 2, 2]) (.one [1, 1, 2]) none =
      .ok ((tableTrace [[1, 1], [0, 1]] / tableSum [[1, 1], [0, 1]] -
            (∑ i in Finset.range (tdim [[1, 1], [0, 1]]),
                rowMarginal [[1, 1], [0, 1]] i * colMarginal [[1, 1], [0, 1]] i) /
              tableSum [[1, 1], [0, 1]] ^ 2) /
          (1 - (∑ i in Finset.range (tdim [[1, 1], [0, 1]]),
                colMarginal [[1, 1], [0, 1]] i * colMarginal [[1, 1], [0, 1]] i) /
              tableSum [[1, 1], [0, 1]] ^ 2)) := by
  have hT : getContingencyTable (.one [1, 2, 2]) (.one [1, 1, 2]) none =
      .ok [[1, 1], [0, 1]] := by decide
  have hn : 0 < tableSum [[1, 1], [0, 1]] := by
    norm_num [tableSum, tdim, tentry, Finset.sum_range_succ]
  exact ⟨hT, hn, (claim_C3 _ _ _ _ hT hn).1⟩

theorem getD_nonneg (l : List ℚ) (j : ℕ) (d : ℚ) (h : ∀ x ∈ l, 0 ≤ x)
    (hd : 0 ≤ d) : 0 ≤ l.getD j d := by
  by_cases hj : j < l.length
  · rw [List.getD_eq_getElem _ _ hj]
    exact h _ (List.getElem_mem hj)
  · rw [List.getD_eq_default _ _ (le_of_not_lt hj)]
    exact hd

theorem tentry_nonneg_of (T : List (List ℚ))
    (h : ∀ row ∈ T, ∀ x ∈ row, 0 ≤ x) (i j : ℕ) : 0 ≤ tentry T i j := by
  unfold tentry
  refine getD_nonneg _ _ _ ?_ (le_refl 0)
  intro x hx
  by_cases hi : i < T.length
  · rw [List.getD_eq_getElem _ _ hi] at hx
    exact h _ (List.getElem_mem hi) x hx
  · rw [List.getD_eq_default _ _ (le_of_not_lt hi)] at hx
    cases hx

theorem buildDetTable_nonneg (pv tv cls : List ℚ) :
    ∀ row ∈ buildDetTable pv tv cls, ∀ x ∈ row, 0 ≤ x := by
  intro row hrow x hx
  unfold buildDetTable at hrow
  rcases List.mem_map.mp hrow with ⟨c1, _, rfl⟩
  rcases List.mem_map.mp hx with ⟨c2, _, rfl⟩
  exact Nat.cast_nonneg _

theorem buildProbTable_nonneg (w : ℕ) (tr pr : List (List ℚ)) :
    ∀ row ∈ buildProbTable w tr pr, ∀ x ∈ row, 0 ≤ x := by
  intro row hrow x hx
  unfold buildProbTable at hrow
  rcases List.mem_map.mp hrow with ⟨i, _, rfl⟩
  rcases List.mem_map.mp hx with ⟨j, _, rfl⟩
  exact Nat.cast_nonneg _

/-- Any table the code returns is one of the two tally shapes. -/
theorem getCT_ok_cases (t p : NDArr) (c : Option (List ℚ)) (T : List (List ℚ))
    (hT : getContingencyTable t p c = .ok T) :
    (∃ pv tv cls, T = buildDetTable pv tv cls) ∨
    (∃ w tr pr, T = buildProbTable w tr pr) := by
  cases t with
  | one tvals =>
      cases p with
      | one pvals =>
          by_cases hlen : (NDArr.one tvals).len ≠ (NDArr.one pvals).len
          · simp [getContingencyTable, hlen] at hT
          · cases c with
            | none =>
                simp [getContingencyTable, hlen] at hT
                exact Or.inl ⟨_, _, _, hT.symm⟩
            | some cs =>
                simp [getContingencyTable, hlen] at hT
                exact Or.inl ⟨_, _, _, hT.symm⟩
      | two prows =>
          by_cases hlen : (NDArr.one tvals).len ≠ (NDArr.two prows).len
          · simp [getContingencyTable, hlen] at hT
          · cases c with
            | none => simp [getContingencyTable, hlen] at hT
            | some cs =>
                simp [getContingencyTable, hlen] at hT
                exact Or.inl ⟨_, _, _, hT.symm⟩
  | two trows =>
      cases p with
      | one xs =>
          by_cases hlen : (NDArr.two trows).len ≠ (NDArr.one xs).len
          · simp [getContingencyTable, hlen] at hT
          · simp [getContingencyTable, hlen] at hT
      | two prows =>
          by_cases hlen : (NDArr.two trows).len ≠ (NDArr.two prows).len
          · simp [getContingencyTable, hlen] at hT
          · simp [getContingencyTable, hlen] at hT
            split at hT
            · simp only [Except.ok.injEq] at hT
              exact Or.inr ⟨_, _, _, hT.symm⟩
            · simp at hT

theorem getCT_ok_entry_nonneg (t p : NDArr) (c : Option (List ℚ))
    (T : List (List ℚ)) (hT : getContingencyTable t p c = .ok T) :
    ∀ i j, 0 ≤ tentry T i j := by
  rcases getCT_ok_cases t p c T hT with ⟨pv, tv, cls, rfl⟩ | ⟨w, tr, pr, rfl⟩
  · exact tentry_nonneg_of _ (buildDetTable_nonneg pv tv cls)
  · exact tentry_nonneg_of _ (buildProbTable_nonneg w tr pr)

theorem colMarginal_dim2 (T : List (List ℚ)) (h2 : tdim T = 2) (j : ℕ) :
    colMarginal T j = tentry T 0 j + tentry T 1 j := by
  unfold colMarginal
  rw [h2]
  simp [Finset.sum_range_succ]

theorem rowMarginal_dim2 (T : List (List ℚ)) (h2 : tdim T = 2) (i : ℕ) :
    rowMarginal T i = tentry T i 0 + tentry T i 1 := by
  unfold rowMarginal
  rw [h2]
  simp [Finset.sum_range_succ]

theorem tableTrace_dim2 (T : List (List ℚ)) (h2 : tdim T = 2) :
    tableTrace T = tentry T 0 0 + tentry T 1 1 := by
  unfold tableTrace
  rw [h2]
  simp [Finset.sum_range_succ]

theorem tableSum_dim2 (T : List (List ℚ)) (h2 : tdim T = 2) :
    tableSum T = tentry T 0 0 + tentry T 0 1 + tentry T 1 0 + tentry T 1 1 := by
  unfold tableSum
  rw [h2]
  simp [Finset.sum_range_succ]
  ring

theorem gerrityOfTable_dim2 (T : List (List ℚ)) (h2 : tdim T = 2) :
    gerrityOfTable T =
      tentry T 0 0 / tableSum T *
          ((1 - colMarginal T 0 / tableSum T) / (colMarginal T 0 / tableSum T)) -
        tentry T 0 1 / tableSum T - tentry T 1 0 / tableSum T +
        tentry T 1 1 / tableSum T *
          (1 / ((1 - colMarginal T 0 / tableSum T) / (colMarginal T 0 / tableSum T))) := by
  simp only [gerrityOfTable, h2]
  norm_num [Finset.sum_range_succ, Finset.sum_range_zero, ← Finset.range_eq_Ico,
    Finset.Ico_self]
  ring

theorem peirceOfTable_expand (T : List (List ℚ)) (h2 : tdim T = 2) :
    peirceOfTable T =
      (tableTrace T / tableSum T -
          (rowMarginal T 0 * colMarginal T 0 + rowMarginal T 1 * colMarginal T 1) /
            tableSum T ^ 2) /
        (1 - (colMarginal T 0 * colMarginal T 0 + colMarginal T 1 * colMarginal T 1) /
            tableSum T ^ 2) := by
  simp only [peirceOfTable, h2]
  norm_num [Finset.sum_range_succ]

/-- For a `2 × 2` table with non-negative entries and both column marginals
nonzero, the Gerrity score collapses to the Peirce skill score. -/
theorem gerrity_eq_peirce_dim2 (T : List (List ℚ)) (h2 : tdim T = 2)
    (hnn : ∀ i j, 0 ≤ tentry T i j)
    (hc0 : colMarginal T 0 ≠ 0) (hc1 : colMarginal T 1 ≠ 0) :
    gerrityOfTable T = peirceOfTable T := by
  rw [gerrityOfTable_dim2 T h2, peirceOfTable_expand T h2,
    tableTrace_dim2 T h2, tableSum_dim2 T h2,
    rowMarginal_dim2 T h2, rowMarginal_dim2 T h2,
    colMarginal_dim2 T h2, colMarginal_dim2 T h2] at *
  set A := tentry T 0 0 with hA
  set B := tentry T 0 1 with hB
  set C := tentry T 1 0 with hC
  set D := tentry T 1 1 with hD
  have hA0 : 0 ≤ A := hnn 0 0
  have hB0 : 0 ≤ B := hnn 0 1
  have hC0 : 0 ≤ C := hnn 1 0
  have hD0 : 0 ≤ D := hnn 1 1
  have hc0' : A + C ≠ 0 := hc0
  have hc1' : B + D ≠ 0 := hc1
  have hc0pos : 0 < A + C := lt_of_le_of_ne (by linarith) (Ne.symm hc0')
  have hc1pos : 0 < B + D := lt_of_le_of_ne (by linarith) (Ne.symm hc1')
  have hN : A + B + C + D ≠ 0 := by
    have : 0 < A + B + C + D := by linarith
    exact ne_of_gt this
  have key : (1 : ℚ) - (A + C) / (A + B + C + D) = (B + D) / (A + B + C + D) := by
    field_simp
    ring
  rw [key]
  have ha : (B + D) / (A + B + C + D) / ((A + C) / (A + B + C + D)) =
      (B + D) / (A + C) := by
    rw [div_div_div_comm]
    rw [div_self hN]
    simp
  rw [ha, one_div_div]
  have keyd : (1 : ℚ) -
      ((A + C) * (A + C) + (B + D) * (B + D)) / (A + B + C + D) ^ 2 =
      2 * (A + C) * (B + D) / (A + B + C + D) ^ 2 := by
    field_simp
    ring
  rw [keyd]
  field_simp
  ring

/-- Claim C4: whenever the built contingency table is `2 × 2` with both
column marginals nonzero, `gerrity_score` and `peirce_skill_score` agree on
the same inputs. -/
theorem claim_C4 (t p : NDArr) (c : Option (List ℚ)) (T : List (List ℚ))
    (hT : getContingencyTable t p c = .ok T) (h2 : tdim T = 2)
    (hc0 : colMarginal T 0 ≠ 0) (hc1 : colMarginal T 1 ≠ 0) :
    gerrity_score t p c = peirce_skill_score t p c := by
  have hnn := getCT_ok_entry_nonneg t p c T hT
  have heq := gerrity_eq_peirce_dim2 T h2 hnn hc0 hc1
  simp [gerrity_score, peirce_skill_score, hT, Except.map, heq]

theorem claim_C4_witness :
    getContingencyTable (.one [0, 0, 1, 1]) (.one [0, 1, 1, 1]) none =
      .ok [[1, 0], [1, 2]] ∧
    tdim [[1, 0], [1, 2]] = 2 ∧
    colMarginal [[1, 0], [1, 2]] 0 ≠ 0 ∧
    colMarginal [[1, 0], [1, 2]] 1 ≠ 0 ∧
    gerrity_score (.one [0, 0, 1, 1]) (.one [0, 1, 1, 1]) none =
      peirce_skill_score (.one [0, 0, 1, 1]) (.one [0, 1, 1, 1]) none := by
  have hT : getContingencyTable (.one [0, 0, 1, 1]) (.one [0, 1, 1, 1]) none =
      .ok [[1, 0], [1, 2]] := by decide
  have hc0 : colMarginal [[1, 0], [1, 2]] 0 ≠ 0 := by
    norm_num [colMarginal, tdim, tentry, Finset.sum_range_succ]
  have hc1 : colMarginal [[1, 0], [1, 2]] 1 ≠ 0 := by
    norm_num [colMarginal, tdim, tentry, Finset.sum_range_succ]
  exact ⟨hT, rfl, hc0, hc1, claim_C4 _ _ _ _ hT rfl hc0 hc1⟩

/-- Claim C5 fails as stated: with a supplied class list that misses a truth
label, a sample is tallied nowhere — truths `[0,5]`, predictions `[0,0]`,
classes `[0,1]` give table `[[1,0],[0,0]]` whose grand total `1` differs from
the `2` scored samples. -/
theorem claim_C5_counterexample :
    getContingencyTable (.one [0, 5]) (.one [0, 0]) (some [0, 1]) =
      .ok [[1, 0], [0, 0]] ∧
    (NDArr.one [0, 5]).len = 2 ∧
    tableSum [[1, 0], [0, 0]] ≠ ((NDArr.one [0, 5]).len : ℚ) := by
  refine ⟨by decide, rfl, ?_⟩
  norm_num [tableSum, tdim, tentry, NDArr.len, Finset.sum_range_succ]

theorem count_one_of_nodup_mem (cls : List ℚ) (x : ℚ) (hnd : cls.Nodup)
    (hx : x ∈ cls) :
    (∑ i in Finset.range cls.length, if x = cls.getD i 0 then (1 : ℚ) else 0) = 1 := by
  induction cls with
  | nil => cases hx
  | cons c cls ih =>
      rw [List.length_cons, Finset.sum_range_succ']
      simp only [List.getD_cons_succ, List.getD_cons_zero]
      rcases List.nodup_cons.mp hnd with ⟨hc, hnd'⟩
      rcases List.mem_cons.mp hx with rfl | hx'
      · rw [if_pos rfl]
        have hzero : (∑ i in Finset.range cls.length,
            if x = cls.getD i 0 then (1 : ℚ) else 0) = 0 := by
          apply Finset.sum_eq_zero
          intro i hi
          rw [if_neg]
          intro hcon
          rw [List.getD_eq_getElem _ _ (Finset.mem_range.mp hi)] at hcon
          exact hc (hcon ▸ List.getElem_mem (Finset.mem_range.mp hi))
        rw [hzero]
        norm_num
      · have hxc : x ≠ c := fun h => hc (h ▸ hx')
        rw [if_neg hxc, ih hnd' hx']
        norm_num

/-- Each sample pair whose labels both occur in a duplicate-free class list is
tallied into exactly one cell of the deterministic table. -/
theorem sum_counts_det (z : List (ℚ × ℚ)) (cls : List ℚ) (hnd : cls.Nodup)
    (hcov : ∀ pt ∈ z, pt.1 ∈ cls ∧ pt.2 ∈ cls) :
    (∑ i in Finset.range cls.length, ∑ j in Finset.range cls.length,
      ((z.countP fun pt => pt.1 = cls.getD i 0 ∧ pt.2 = cls.getD j 0 : ℕ) : ℚ)) =
      z.length := by
  induction z with
  | nil => simp
  | cons pt z ih =>
      have hcov' : ∀ q ∈ z, q.1 ∈ cls ∧ q.2 ∈ cls :=
        fun q hq => hcov q (List.mem_cons_of_mem pt hq)
      rcases hcov pt (List.mem_cons_self pt z) with ⟨h1, h2⟩
      have hone : (∑ i in Finset.range cls.length, ∑ j in Finset.range cls.length,
          if pt.1 = cls.getD i 0 ∧ pt.2 = cls.getD j 0 then (1 : ℚ) else 0) = 1 := by
        have hB := count_one_of_nodup_mem cls pt.2 hnd h2
        have hA := count_one_of_nodup_mem cls pt.1 hnd h1
        calc (∑ i in Finset.range cls.length, ∑ j in Finset.range cls.length,
              if pt.1 = cls.getD i 0 ∧ pt.2 = cls.getD j 0 then (1 : ℚ) else 0)
            = ∑ i in Finset.range cls.length,
                if pt.1 = cls.getD i 0 then (1 : ℚ) else 0 := by
              apply Finset.sum_congr rfl
              intro i _
              by_cases hAi : pt.1 = cls.getD i 0
              · simp only [hAi, true_and, if_pos rfl]
                exact hB
              · rw [if_neg hAi]
                apply Finset.sum_eq_zero
                intro j _
                exact if_neg fun h => hAi h.1
          _ = 1 := hA
      simp only [List.countP_cons]
      push_cast
      simp only [Finset.sum_add_distrib]
      rw [ih hcov']
      simp only [Bool.and_eq_true, decide_eq_true_eq]
      rw [hone]
      push_cast [List.length_cons]
      ring

theorem sum_counts_prob (z : List (ℕ × ℕ)) (w : ℕ)
    (hcov : ∀ pt ∈ z, pt.1 < w ∧ pt.2 < w) :
    (∑ i in Finset.range w, ∑ j in Finset.range w,
      ((z.countP fun pt => pt.1 = i ∧ pt.2 = j : ℕ) : ℚ)) = z.length := by
  induction z with
  | nil => simp
  | cons pt z ih =>
      have hcov' : ∀ q ∈ z, q.1 < w ∧ q.2 < w :=
        fun q hq => hcov q (List.mem_cons_of_mem pt hq)
      rcases hcov pt (List.mem_cons_self pt z) with ⟨h1, h2⟩
      have hone : (∑ i in Finset.range w, ∑ j in Finset.range w,
          if pt.1 = i ∧ pt.2 = j then (1 : ℚ) else 0) = 1 := by
        have hB : (∑ j in Finset.range w, if pt.2 = j then (1 : ℚ) else 0) = 1 := by
          rw [Finset.sum_ite_eq]
          simp [Finset.mem_range.mpr h2]
        calc (∑ i in Finset.range w, ∑ j in Finset.range w,
              if pt.1 = i ∧ pt.2 = j then (1 : ℚ) else 0)
            = ∑ i in Finset.range w, if pt.1 = i then (1 : ℚ) else 0 := by
              apply Finset.sum_congr rfl
              intro i _
              by_cases hAi : pt.1 = i
              · simp only [hAi, true_and, if_pos rfl]
                exact hB
              · rw [if_neg hAi]
                apply Finset.sum_eq_zero
                intro j _
                exact if_neg fun h => hAi h.1
          _ = 1 := by
              rw [Finset.sum_ite_eq]
              simp [Finset.mem_range.mpr h1]
      simp only [List.countP_cons]
      push_cast
      simp only [Finset.sum_add_distrib]
      rw [ih hcov']
      simp only [Bool.and_eq_true, decide_eq_true_eq]
      rw [hone]
      push_cast [List.length_cons]
      ring

theorem tableSum_buildDetTable (pv tv cls : List ℚ) :
    tableSum (buildDetTable pv tv cls) =
      ∑ i in Finset.range cls.length, ∑ j in Finset.range cls.length,
        (((pv.zip tv).countP fun pt =>
            pt.1 = cls.getD i 0 ∧ pt.2 = cls.getD j 0 : ℕ) : ℚ) := by
  unfold tableSum
  rw [tdim_buildDetTable]
  apply Finset.sum_congr rfl
  intro i hi
  apply Finset.sum_congr rfl
  intro j hj
  exact tentry_buildDetTable pv tv cls (Finset.mem_range.mp hi) (Finset.mem_range.mp hj)

theorem tdim_buildProbTable (w : ℕ) (tr pr : List (List ℚ)) :
    tdim (buildProbTable w tr pr) = w := by
  simp [buildProbTable, tdim]

theorem tentry_buildProbTable (w : ℕ) (tr pr : List (List ℚ)) {i j : ℕ}
    (hi : i < w) (hj : j < w) :
    tentry (buildProbTable w tr pr) i j =
      ((((pr.map argmaxIdx).zip (tr.map argmaxIdx)).countP
          fun pt => pt.1 = i ∧ pt.2 = j : ℕ) : ℚ) := by
  unfold tentry buildProbTable
  rw [getD_map_lt _ (List.range w) [] 0 (by simpa using hi),
    getD_map_lt _ (List.range w) 0 0 (by simpa using hj),
    List.getD_eq_getElem _ _ (by simpa using hi),
    List.getD_eq_getElem _ _ (by simpa using hj)]
  simp

theorem tableSum_buildProbTable (w : ℕ) (tr pr : List (List ℚ)) :
    tableSum (buildProbTable w tr pr) =
      ∑ i in Finset.range w, ∑ j in Finset.range w,
        ((((pr.map argmaxIdx).zip (tr.map argmaxIdx)).countP
            fun pt => pt.1 = i ∧ pt.2 = j : ℕ) : ℚ) := by
  unfold tableSum
  rw [tdim_buildProbTable]
  apply Finset.sum_congr rfl
  intro i hi
  apply Finset.sum_congr rfl
  intro j hj
  exact tentry_buildProbTable w tr pr (Finset.mem_range.mp hi) (Finset.mem_range.mp hj)

theorem argmaxAux_lt (xs : List ℚ) :
    ∀ bv i bi, bi < i → argmaxAux xs bv i bi < i + xs.length := by
  induction xs with
  | nil =>
      intro bv i bi h
      simpa [argmaxAux] using lt_of_lt_of_le h (Nat.le_add_right i 0)
  | cons x xs ih =>
      intro bv i bi h
      unfold argmaxAux
      by_cases hx : bv < x
      · rw [if_pos hx]
        have := ih x (i + 1) i (Nat.lt_succ_self i)
        simp only [List.length_cons]
        omega
      · rw [if_neg hx]
        have := ih bv (i + 1) bi (lt_trans h (Nat.lt_succ_self i))
        simp only [List.length_cons]
        omega

theorem argmaxIdx_lt (xs : List ℚ) (h : xs ≠ []) : argmaxIdx xs < xs.length := by
  cases xs with
  | nil => exact absurd rfl h
  | cons x xs =>
      unfold argmaxIdx
      have := argmaxAux_lt xs x 1 0 (by norm_num)
      simp only [List.length_cons]
      omega

theorem detTable_total (pv tv cls : List ℚ) (hnd : cls.Nodup)
    (hlen : pv.length = tv.length)
    (hcovp : ∀ x ∈ pv, x ∈ cls) (hcovt : ∀ x ∈ tv, x ∈ cls) :
    tableSum (buildDetTable pv tv cls) = tv.length := by
  have hcov : ∀ pt ∈ pv.zip tv, pt.1 ∈ cls ∧ pt.2 ∈ cls := by
    intro pt hpt
    rcases pt with ⟨a, b⟩
    have h := List.of_mem_zip hpt
    exact ⟨hcovp a h.1, hcovt b h.2⟩
  rw [tableSum_buildDetTable, sum_counts_det (pv.zip tv) cls hnd hcov]
  simp [List.length_zip, hlen]

theorem probTable_total (w : ℕ) (tr pr : List (List ℚ))
    (hlen : pr.length = tr.length)
    (hcovp : ∀ row ∈ pr, argmaxIdx row < w)
    (hcovt : ∀ row ∈ tr, argmaxIdx row < w) :
    tableSum (buildProbTable w tr pr) = tr.length := by
  have hcov : ∀ pt ∈ (pr.map argmaxIdx).zip (tr.map argmaxIdx),
      pt.1 < w ∧ pt.2 < w := by
    intro pt hpt
    rcases pt with ⟨a, b⟩
    have h := List.of_mem_zip hpt
    rcases List.mem_map.mp h.1 with ⟨row, hrow, rfl⟩
    rcases List.mem_map.mp h.2 with ⟨row2, hrow2, rfl⟩
    exact ⟨hcovp row hrow, hcovt row2 hrow2⟩
  rw [tableSum_buildProbTable, sum_counts_prob _ w hcov]
  simp [List.length_zip, hlen]

theorem sortedUnionOfLabels_nodup (t p : List ℚ) :
    (sortedUnionOfLabels t p).Nodup := by
  unfold sortedUnionOfLabels
  exact ((List.perm_insertionSort _ _).nodup_iff).mpr (List.nodup_dedup _)

theorem mem_sortedUnionOfLabels {t p : List ℚ} {x : ℚ} :
    x ∈ sortedUnionOfLabels t p ↔ x ∈ t ∨ x ∈ p := by
  simp [sortedUnionOfLabels, List.mem_insertionSort, List.mem_dedup, List.mem_append]

/-- Amended claim C5: every cell of a returned table is non-negative, and the
grand total equals the number of samples in each branch, with the
classes-supplied deterministic branches additionally requiring a
duplicate-free class list covering every truth and (collapsed) prediction
label (without the coverage the counterexample applies), and the fully
probabilistic branch requiring the rectangular nonempty rows numpy arrays
guarantee. -/
theorem claim_C5_amended :
    (∀ t p c T, getContingencyTable t p c = .ok T → ∀ i j, 0 ≤ tentry T i j) ∧
    (∀ tv pv T, getContingencyTable (.one tv) (.one pv) none = .ok T →
      tableSum T = tv.length) ∧
    (∀ tv pv cs T, getContingencyTable (.one tv) (.one pv) (some cs) = .ok T →
      cs.Nodup → (∀ x ∈ tv, x ∈ cs) → (∀ x ∈ pv, x ∈ cs) →
      tableSum T = tv.length) ∧
    (∀ tv prows cs T, getContingencyTable (.one tv) (.two prows) (some cs) = .ok T →
      cs.Nodup → (∀ x ∈ tv, x ∈ cs) → (∀ row ∈ prows, argmaxIdx row < cs.length) →
      tableSum T = tv.length) ∧
    (∀ trows prows c T, getContingencyTable (.two trows) (.two prows) c = .ok T →
      (∀ row ∈ trows, row.length = (trows.headD []).length ∧ row ≠ []) →
      (∀ row ∈ prows, row.length = (trows.headD []).length ∧ row ≠ []) →
      tableSum T = trows.length) := by
  refine ⟨getCT_ok_entry_nonneg, ?_, ?_, ?_, ?_⟩
  · intro tv pv T hT
    by_cases hlen : (NDArr.one tv).len ≠ (NDArr.one pv).len
    · simp [getContingencyTable, hlen] at hT
    · simp [getContingencyTable, hlen] at hT
      have hlen' : pv.length = tv.length := by
        simp [NDArr.len] at hlen
        omega
      rw [← hT, npUnique_derived_classes]
      exact detTable_total pv tv _ (sortedUnionOfLabels_nodup tv pv) hlen'
        (fun x hx => mem_sortedUnionOfLabels.mpr (Or.inr hx))
        (fun x hx => mem_sortedUnionOfLabels.mpr (Or.inl hx))
  · intro tv pv cs T hT hnd hcovt hcovp
    by_cases hlen : (NDArr.one tv).len ≠ (NDArr.one pv).len
    · simp [getContingencyTable, hlen] at hT
    · simp [getContingencyTable, hlen] at hT
      have hlen' : pv.length = tv.length := by
        simp [NDArr.len] at hlen
        omega
      rw [← hT]
      exact detTable_total pv tv cs hnd hlen' hcovp hcovt
  · intro tv prows cs T hT hnd hcovt hbound
    by_cases hlen : (NDArr.one tv).len ≠ (NDArr.two prows).len
    · simp [getContingencyTable, hlen] at hT
    · simp [getContingencyTable, hlen] at hT
      simp only [← List.getD_eq_getElem?_getD] at hT
      have hlen' : (prows.map fun row => cs.getD (argmaxIdx row) 0).length = tv.length := by
        simp [NDArr.len] at hlen
        simp [hlen]
      rw [← hT]
      refine detTable_total _ tv cs hnd hlen' ?_ hcovt
      intro x hx
      rcases List.mem_map.mp hx with ⟨row, hrow, rfl⟩
      rw [List.getD_eq_getElem _ _ (hbound row hrow)]
      exact List.getElem_mem (hbound row hrow)
  · intro trows prows c T hT hwf_t hwf_p
    by_cases hlen : (NDArr.two trows).len ≠ (NDArr.two prows).len
    · simp [getContingencyTable, hlen] at hT
    · simp [getContingencyTable, hlen] at hT
      split at hT
      · simp only [Except.ok.injEq] at hT
        simp only [← List.headD_eq_head?] at hT
        have hlen' : prows.length = trows.length := by
          simp [NDArr.len] at hlen
          omega
        rw [← hT]
        refine probTable_total _ trows prows hlen' ?_ ?_
        · intro row hrow
          rcases hwf_p row hrow with ⟨hrl, hrne⟩
          rw [← hrl]
          exact argmaxIdx_lt row hrne
        · intro row hrow
          rcases hwf_t row hrow with ⟨hrl, hrne⟩
          rw [← hrl]
          exact argmaxIdx_lt row hrne
      · simp at hT

theorem claim_C5_amended_witness :
    ((0 : ℚ) ≤ tentry [[1]] 0 0) ∧
    (tableSum [[1]] = (([0] : List ℚ).length : ℚ)) ∧
    (tableSum [[1]] = (([5] : List ℚ).length : ℚ)) ∧
    (tableSum [[1]] = (([0] : List ℚ).length : ℚ)) ∧
    (tableSum [[1]] = (([[1]] : List (List ℚ)).length : ℚ)) :=
  ⟨claim_C5_amended.1 (.one [0]) (.one [0]) none [[1]] (by decide) 0 0,
   claim_C5_amended.2.1 [0] [0] [[1]] (by decide),
   claim_C5_amended.2.2.1 [5] [5] [5] [[1]] (by decide) (by decide) (by decide)
     (by decide),
   claim_C5_amended.2.2.2.1 [0] [[1]] [0] [[1]] (by decide) (by decide) (by decide)
     (by decide),
   claim_C5_amended.2.2.2.2 [[1]] [[2]] none [[1]] (by decide) (by decide)
     (by decide)⟩

/-- Claim C7: for truths `[0,0,1,1]`, predictions `[0,1,1,1]` and classes
`[0,1]`, `_get_contingency_table` returns `[[1,0],[1,2]]` and
`peirce_skill_score` returns `0.5`. -/
theorem claim_C7 :
    getContingencyTable (.one [0, 0, 1, 1]) (.one [0, 1, 1, 1]) (some [0, 1]) =
      .ok [[1, 0], [1, 2]] ∧
    peirce_skill_score (.one [0, 0, 1, 1]) (.one [0, 1, 1, 1]) (some [0, 1]) =
      .ok (1 / 2) := by
  have h : getContingencyTable (.one [0, 0, 1, 1]) (.one [0, 1, 1, 1]) (some [0, 1]) =
      .ok [[1, 0], [1, 2]] := by decide
  refine ⟨h, ?_⟩
  rw [peirce_skill_score, h]
  simp only [Except.map]
  norm_num [peirceOfTable, tableSum, tdim, tentry, rowMarginal, colMarginal, tableTrace,
    Finset.sum_range_succ]

/-- Claim C8: whenever the truths and predictions have differing lengths, the
contingency-table builder and all three metric functions fail with the
length-mismatch error, for every dimensionality and classes argument. -/
theorem claim_C8 (t p : NDArr) (c : Option (List ℚ)) (h : t.len ≠ p.len) :
    getContingencyTable t p c = .error .unmatchedLength ∧
    gerrity_score t p c = .error .unmatchedLength ∧
    peirce_skill_score t p c = .error .unmatchedLength ∧
    heidke_skill_score t p c = .error .unmatchedLength := by
  have hg : getContingencyTable t p c = .error .unmatchedLength := by
    unfold getContingencyTable
    rw [if_pos h]
  exact ⟨hg, by simp [gerrity_score, hg, Except.map],
    by simp [peirce_skill_score, hg, Except.map],
    by simp [heidke_skill_score, hg, Except.map]⟩

theorem claim_C8_witness :
    (NDArr.one [0, 0, 0, 0, 0]).len ≠ (NDArr.one [0, 0, 0, 0]).len ∧
    getContingencyTable (.one [0, 0, 0, 0, 0]) (.one [0, 0, 0, 0]) none =
      .error .unmatchedLength :=
  ⟨by decide, (claim_C8 (.one [0, 0, 0, 0, 0]) (.one [0, 0, 0, 0]) none (by decide)).1⟩

/-- Claim C9: with two-dimensional predictions and one-dimensional truths of
equal length, omitting `classes` raises the ambiguous-probabilistic-forecasts
error, while supplying `classes` avoids that error and collapses predictions
by arg-max indexed into `classes`. -/
theorem claim_C9 (tvals : List ℚ) (prows : List (List ℚ))
    (h : tvals.length = prows.length) :
    getContingencyTable (.one tvals) (.two prows) none = .error .ambiguousProb ∧
    (∀ cs, getContingencyTable (.one tvals) (.two prows) (some cs) ≠
        .error .ambiguousProb) ∧
    (∀ cs, getContingencyTable (.one tvals) (.two prows) (some cs) =
        getContingencyTable (.one tvals)
          (.one (prows.map fun row => cs.getD (argmaxIdx row) 0)) (some cs)) := by
  have hl : (NDArr.one tvals).len = (NDArr.two prows).len := h
  refine ⟨?_, fun cs => ?_, fun cs => ?_⟩
  · simp [getContingencyTable, hl]
  · simp [getContingencyTable, hl]
  · have hl' : (NDArr.one tvals).len =
        (NDArr.one (prows.map fun row => cs.getD (argmaxIdx row) 0)).len := by
      simp [NDArr.len, h]
    simp [getContingencyTable, hl, hl', NDArr.len]

theorem claim_C9_witness :
    ([0] : List ℚ).length = ([[1]] : List (List ℚ)).length ∧
    getContingencyTable (.one [0]) (.two [[1]]) none = .error .ambiguousProb ∧
    getContingencyTable (.one [0]) (.two [[1]]) (some [3]) ≠ .error .ambiguousProb :=
  ⟨rfl, (claim_C9 [0] [[1]] rfl).1, (claim_C9 [0] [[1]] rfl).2.1 [3]⟩

/-- Python's `min` keeps the first element attaining the minimum: along a list
whose first components are strictly increasing, the fold underlying `pyMin`
returns a member whose key is minimal and which, among exact key ties, has
the smallest first component. -/
theorem pyMin_fold_spec (l : List (ℕ × ℚ)) :
    ∀ b : ℕ × ℚ, (b :: l).Pairwise (fun x y => x.1 < y.1) →
      (l.foldl (fun p q => if q.2 < p.2 then q else p) b) ∈ b :: l ∧
      (∀ y ∈ b :: l, (l.foldl (fun p q => if q.2 < p.2 then q else p) b).2 ≤ y.2) ∧
      (∀ y ∈ b :: l, y.2 = (l.foldl (fun p q => if q.2 < p.2 then q else p) b).2 →
        (l.foldl (fun p q => if q.2 < p.2 then q else p) b).1 ≤ y.1) := by
  induction l with
  | nil =>
      intro b _
      refine ⟨by simp, ?_, ?_⟩
      · intro y hy
        simp only [List.foldl_nil]
        simp at hy
        subst hy
        exact le_refl _
      · intro y hy _
        simp only [List.foldl_nil]
        simp at hy
        subst hy
        exact le_refl _
  | cons a l ih =>
      intro b hp
      rw [List.foldl_cons]
      rcases List.pairwise_cons.mp hp with ⟨hb, hal⟩
      rcases List.pairwise_cons.mp hal with ⟨_, hl⟩
      by_cases hab : a.2 < b.2
      · simp only [if_pos hab]
        rcases ih a hal with ⟨h1, h2, h3⟩
        refine ⟨List.mem_cons_of_mem b h1, ?_, ?_⟩
        · intro y hy
          rcases List.mem_cons.mp hy with rfl | hy'
          · exact le_of_lt (lt_of_le_of_lt (h2 a (List.mem_cons_self a l)) hab)
          · exact h2 y hy'
        · intro y hy hey
          rcases List.mem_cons.mp hy with rfl | hy'
          · have hlt := lt_of_le_of_lt (h2 a (List.mem_cons_self a l)) hab
            exact absurd hey (ne_of_gt hlt)
          · exact h3 y hy' hey
      · simp only [if_neg hab]
        have hba : b.2 ≤ a.2 := le_of_not_lt hab
        have hp' : (b :: l).Pairwise (fun x y => x.1 < y.1) :=
          List.pairwise_cons.mpr
            ⟨fun y hy => hb y (List.mem_cons_of_mem a hy), hl⟩
        rcases ih b hp' with ⟨h1, h2, h3⟩
        refine ⟨?_, ?_, ?_⟩
        · rcases List.mem_cons.mp h1 with h | h
          · exact List.mem_cons.mpr (Or.inl h)
          · exact List.mem_cons_of_mem b (List.mem_cons_of_mem a h)
        · intro y hy
          rcases List.mem_cons.mp hy with rfl | hy'
          · exact h2 y (List.mem_cons_self y l)
          rcases List.mem_cons.mp hy' with rfl | hy''
          · exact le_trans (h2 b (List.mem_cons_self b l)) hba
          · exact h2 y (List.mem_cons_of_mem b hy'')
        · intro y hy hey
          rcases List.mem_cons.mp hy with rfl | hy'
          · exact h3 y (List.mem_cons_self y l) hey
          rcases List.mem_cons.mp hy' with rfl | hy''
          · have hr2 : (l.foldl (fun p q => if q.2 < p.2 then q else p) b).2 = b.2 :=
              le_antisymm (h2 b (List.mem_cons_self b l)) (hey ▸ hba)
            have hrb : (l.foldl (fun p q => if q.2 < p.2 then q else p) b).1 ≤ b.1 :=
              h3 b (List.mem_cons_self b l) hr2.symm
            exact le_trans hrb (le_of_lt (hb y (List.mem_cons_self y l)))
          · exact h3 y (List.mem_cons_of_mem b hy'') hey

/-- The round mapping lists the candidates in strictly ascending variable
index. -/
theorem roundMapping_pairwise (keyOf : List ℕ → ℕ → ℚ) (numVars : ℕ)
    (important : List ℕ) :
    (roundMapping keyOf numVars important).Pairwise (fun x y => x.1 < y.1) := by
  unfold roundMapping
  rw [List.pairwise_map]
  exact (List.pairwise_lt_range numVars).filter _

/-- Claim C6: the round winner is the `pyMin` of the round's variable-to-key
mapping (a deterministic function of it); the winner's comparison key is
minimal, and on exact key ties the lowest-index candidate wins. -/
theorem claim_C6 (keyOf : List ℕ → ℕ → ℚ) (numVars : ℕ) (important : List ℕ)
    (hne : roundMapping keyOf numVars important ≠ []) :
    ∃ w, selectRound keyOf numVars important = some w ∧
      w ∈ sfsCandidates numVars important ∧
      (∀ v ∈ sfsCandidates numVars important,
        keyOf important w ≤ keyOf important v) ∧
      (∀ v ∈ sfsCandidates numVars important,
        keyOf important v = keyOf important w → w ≤ v) := by
  rcases hL : roundMapping keyOf numVars important with _ | ⟨b, l⟩
  · exact absurd hL hne
  have hpw := roundMapping_pairwise keyOf numVars important
  rw [hL] at hpw
  rcases pyMin_fold_spec l b hpw with ⟨h1, h2, h3⟩
  set r := l.foldl (fun p q => if q.2 < p.2 then q else p) b with hr
  have hsel : selectRound keyOf numVars important = some r.1 := by
    unfold selectRound
    rw [hL]
    rfl
  have hmem : r ∈ roundMapping keyOf numVars important := hL ▸ h1
  unfold roundMapping at hmem
  rcases List.mem_map.mp hmem with ⟨v, hv, hvr⟩
  have hr1 : r.1 = v := by rw [← hvr]
  have hr2 : r.2 = keyOf important v := by rw [← hvr]
  refine ⟨r.1, hsel, hr1 ▸ hv, ?_, ?_⟩
  · intro u hu
    have hy : (u, keyOf important u) ∈ roundMapping keyOf numVars important :=
      List.mem_map_of_mem _ hu
    have := h2 (u, keyOf important u) (hL ▸ hy)
    rw [hr2] at this
    rw [hr1]
    simpa using this
  · intro u hu heq
    have hy : (u, keyOf important u) ∈ roundMapping keyOf numVars important :=
      List.mem_map_of_mem _ hu
    have := h3 (u, keyOf important u) (hL ▸ hy) (by rw [hr2]; simpa [hr1] using heq)
    simpa using this

theorem claim_C6_witness :
    roundMapping (fun _ _ => (0 : ℚ)) 2 [] ≠ [] ∧
    (∃ w, selectRound (fun _ _ => (0 : ℚ)) 2 [] = some w ∧
      w ∈ sfsCandidates 2 [] ∧
      (∀ v ∈ sfsCandidates 2 [], (0 : ℚ) ≤ 0) ∧
      (∀ v ∈ sfsCandidates 2 [], (0 : ℚ) = 0 → w ≤ v)) :=
  ⟨by decide, claim_C6 (fun _ _ => (0 : ℚ)) 2 [] (by decide)⟩

theorem mem_sfsCandidates {m : ℕ} {imp : List ℕ} {v : ℕ} :
    v ∈ sfsCandidates m imp ↔ v < m ∧ v ∉ imp := by
  simp [sfsCandidates]

theorem length_filter_ne_of_nodup (l : List ℕ) (a : ℕ) (hnd : l.Nodup)
    (ha : a ∈ l) : (l.filter fun v => v ≠ a).length = l.length - 1 := by
  induction l with
  | nil => cases ha
  | cons x l ih =>
      rcases List.nodup_cons.mp hnd with ⟨hx, hnd'⟩
      rcases List.mem_cons.mp ha with rfl | ha'
      · rw [List.filter_cons_of_neg (by simp)]
        rw [List.filter_eq_self.mpr (fun b hb => by
          simp only [decide_eq_true_eq]
          exact fun hba => hx (hba ▸ hb))]
        simp
      · have hxa : x ≠ a := fun hcon => hx (hcon ▸ ha')
        rw [List.filter_cons_of_pos (by simpa using hxa)]
        have hlen : 1 ≤ l.length := List.length_pos.mpr (List.ne_nil_of_mem ha')
        simp only [List.length_cons, ih hnd' ha']
        omega

/-- Spec §4.1: each round generates exactly `total - |important|` candidates,
so the candidate set shrinks by exactly one as each committed variable is
excluded. -/
theorem sfsCandidates_length (m : ℕ) (imp : List ℕ) (hnd : imp.Nodup)
    (hb : ∀ x ∈ imp, x < m) : (sfsCandidates m imp).length = m - imp.length := by
  induction imp with
  | nil => simp [sfsCandidates]
  | cons x imp ih =>
      rcases List.nodup_cons.mp hnd with ⟨hx, hnd'⟩
      have hb' : ∀ y ∈ imp, y < m := fun y hy => hb y (List.mem_cons_of_mem x hy)
      have hxc : x ∈ sfsCandidates m imp :=
        mem_sfsCandidates.mpr ⟨hb x (List.mem_cons_self x imp), hx⟩
      have hsplit : sfsCandidates m (x :: imp) =
          (sfsCandidates m imp).filter fun v => v ≠ x := by
        unfold sfsCandidates
        rw [List.filter_filter]
        apply List.filter_congr
        intro v _
        simp only [List.mem_cons, decide_not, Bool.not_eq_true']
        cases Decidable.em (v = x) with
        | inl hvx => simp [hvx]
        | inr hvx => simp [hvx]
      have hndc : (sfsCandidates m imp).Nodup := by
        unfold sfsCandidates
        exact (List.nodup_range m).filter _
      rw [hsplit, length_filter_ne_of_nodup _ _ hndc hxc, ih hnd' hb']
      simp only [List.length_cons]
      omega

theorem foldl_pyMin_mem {α : Type} (f : α → ℚ) (l : List α) :
    ∀ b : α, (l.foldl (fun p q => if f q < f p then q else p) b) ∈ b :: l := by
  induction l with
  | nil => intro b; simp
  | cons a l ih =>
      intro b
      rw [List.foldl_cons]
      by_cases hab : f a < f b
      · rw [if_pos hab]
        rcases List.mem_cons.mp (ih a) with h | h
        · rw [h]
          exact List.mem_cons_of_mem b (List.mem_cons_self a l)
        · exact List.mem_cons_of_mem b (List.mem_cons_of_mem a h)
      · rw [if_neg hab]
        rcases List.mem_cons.mp (ih b) with h | h
        · rw [h]
          exact List.mem_cons_self b (a :: l)
        · exact List.mem_cons_of_mem b (List.mem_cons_of_mem a h)

theorem selectRound_success (keyOf : List ℕ → ℕ → ℚ) (m : ℕ) (imp : List ℕ)
    (hne : sfsCandidates m imp ≠ []) :
    ∃ w, selectRound keyOf m imp = some w ∧ w ∈ sfsCandidates m imp := by
  rcases hL : roundMapping keyOf m imp with _ | ⟨b, l⟩
  · exact absurd (List.map_eq_nil_iff.mp hL) hne
  have hmem : (l.foldl (fun p q => if q.2 < p.2 then q else p) b) ∈ b :: l :=
    foldl_pyMin_mem Prod.snd l b
  have hsel : selectRound keyOf m imp =
      some (l.foldl (fun p q => if q.2 < p.2 then q else p) b).1 := by
    unfold selectRound
    rw [hL]
    rfl
  have hmem' : (l.foldl (fun p q => if q.2 < p.2 then q else p) b) ∈
      roundMapping keyOf m imp := hL ▸ hmem
  unfold roundMapping at hmem'
  rcases List.mem_map.mp hmem' with ⟨v, hv, hvr⟩
  exact ⟨_, hsel, by rw [← hvr]; exact hv⟩

theorem importantAfter_invariant (keyOf : List ℕ → ℕ → ℚ) (m : ℕ) :
    ∀ r, r ≤ m → ∃ imp, importantAfter keyOf m r = some imp ∧
      imp.length = r ∧ imp.Nodup ∧ ∀ x ∈ imp, x < m := by
  intro r
  induction r with
  | zero => exact fun _ => ⟨[], rfl, rfl, List.nodup_nil, by simp⟩
  | succ rr ih =>
      intro h
      rcases ih (Nat.le_of_succ_le h) with ⟨imp, hImp, hlen, hnd, hb⟩
      have hlt : imp.length < m := hlen ▸ Nat.lt_of_succ_le h
      have hne : sfsCandidates m imp ≠ [] := by
        intro hcon
        have := sfsCandidates_length m imp hnd hb
        rw [hcon] at this
        simp at this
        omega
      rcases selectRound_success keyOf m imp hne with ⟨w, hw, hwc⟩
      rcases mem_sfsCandidates.mp hwc with ⟨hwm, hwi⟩
      refine ⟨imp ++ [w], ?_, ?_, ?_, ?_⟩
      · show (importantAfter keyOf m rr).bind _ = _
        rw [hImp]
        simp [hw]
      · simp [hlen]
      · simp [List.nodup_append, hnd, hwi]
      · intro x hx
        rcases List.mem_append.mp hx with hx' | hx'
        · exact hb x hx'
        · simp at hx'
          exact hx' ▸ hwm

/-- Claim C2: a run of `sequential_selection` with `nimportant_vars ≤ m`
(defaulting to `m`) succeeds, commits exactly `nimportant_vars` distinct
variables, one per round, and every round `r` starts from exactly `r`
committed variables, all excluded from a candidate set of size `m − r`. -/
theorem claim_C2 (keyOf : List ℕ → ℕ → ℚ) (m : ℕ) (nimp : Option ℕ)
    (h : nimp.getD m ≤ m) :
    ∃ l, sequential_selection keyOf m nimp = some l ∧
      l.length = nimp.getD m ∧ l.Nodup ∧ (∀ x ∈ l, x < m) ∧
      ∀ r, r ≤ nimp.getD m → ∃ imp, importantAfter keyOf m r = some imp ∧
        imp.length = r ∧ (∀ v ∈ imp, v ∉ sfsCandidates m imp) ∧
        (sfsCandidates m imp).length = m - r := by
  rcases importantAfter_invariant keyOf m _ h with ⟨l, hl, hlen, hnd, hb⟩
  refine ⟨l, hl, hlen, hnd, hb, fun r hr => ?_⟩
  rcases importantAfter_invariant keyOf m r (le_trans hr h) with ⟨imp, h1, h2, h3, h4⟩
  refine ⟨imp, h1, h2, fun v hv hvc => (mem_sfsCandidates.mp hvc).2 hv, ?_⟩
  rw [sfsCandidates_length m imp h3 h4, h2]

theorem claim_C2_witness :
    (Option.getD none 2 ≤ 2) ∧
    (∃ l, sequential_selection (fun _ _ => (0 : ℚ)) 2 none = some l ∧
      l.length = Option.getD none 2 ∧ l.Nodup ∧ (∀ x ∈ l, x < 2) ∧
      ∀ r, r ≤ Option.getD none 2 →
        ∃ imp, importantAfter (fun _ _ => (0 : ℚ)) 2 r = some imp ∧
          imp.length = r ∧ (∀ v ∈ imp, v ∉ sfsCandidates 2 imp) ∧
          (sfsCandidates 2 imp).length = 2 - r) :=
  ⟨by decide, claim_C2 (fun _ _ => (0 : ℚ)) 2 none (by decide)⟩

/-- Claim C10: with two-dimensional truths the `classes` argument is dead: the
table builder and all three metric functions return identical results for any
two classes values, and a successfully built table has side equal to the
class-axis width of the truths. -/
theorem claim_C10 (trows : List (List ℚ)) (p : NDArr) (c₁ c₂ : Option (List ℚ)) :
    getContingencyTable (.two trows) p c₁ = getContingencyTable (.two trows) p c₂ ∧
    gerrity_score (.two trows) p c₁ = gerrity_score (.two trows) p c₂ ∧
    peirce_skill_score (.two trows) p c₁ = peirce_skill_score (.two trows) p c₂ ∧
    heidke_skill_score (.two trows) p c₁ = heidke_skill_score (.two trows) p c₂ ∧
    (∀ T, getContingencyTable (.two trows) p c₁ = .ok T →
      tdim T = (NDArr.two trows).shape1) := by
  have hmain : getContingencyTable (.two trows) p c₁ =
      getContingencyTable (.two trows) p c₂ := by
    cases p <;> rfl
  refine ⟨hmain, by simp [gerrity_score, hmain], by simp [peirce_skill_score, hmain],
    by simp [heidke_skill_score, hmain], fun T hT => ?_⟩
  cases p with
  | one xs =>
      by_cases hlen : (NDArr.two trows).len ≠ (NDArr.one xs).len
      · simp [getContingencyTable, hlen] at hT
      · simp [getContingencyTable, hlen] at hT
  | two prows =>
      by_cases hlen : (NDArr.two trows).len ≠ (NDArr.two prows).len
      · simp [getContingencyTable, hlen] at hT
      · simp [getContingencyTable, hlen] at hT
        split at hT
        · simp only [Except.ok.injEq] at hT
          rw [← hT]
          simp [buildProbTable, tdim, NDArr.shape1]
        · simp at hT

theorem claim_C10_witness :
    getContingencyTable (.two [[1, 0]]) (.two [[0, 1]]) none = .ok [[0, 0], [1, 0]] ∧
    tdim [[0, 0], [1, 0]] = (NDArr.two [[1, 0]]).shape1 :=
  ⟨by decide,
    (claim_C10 [[1, 0]] (.two [[0, 1]]) none (some [])).2.2.2.2 [[0, 0], [1, 0]]
      (by decide)⟩
